import Mathlib

/-!
# Verification of the Conversation Context & Resilient Cache Manager

Shallow embedding of the core of the `TelegramGPTBot` repository
(`bot.py`, `data_manager.py`) and proofs about it: the per-user bounded
context window, the retry/backoff wrapper around the completion service,
the question/answer cache with its normalisation, atomic persistence and
corruption recovery, and the reply-chunking logic.

Python strings are modelled as `List Char`; machine I/O (the network call,
file-system writes) is modelled by explicit outcome parameters and event
traces; timestamps are passed in as opaque values.
-/

namespace TGBot

/-- Strings are modelled as lists of characters (Python `str`). -/
abbrev Str := List Char

/-- Whitespace as recognised by Python `str.split()` / `str.strip()`
(ASCII subset: space, tab, newline, carriage return). -/
def isWsChar (c : Char) : Bool :=
  c == ' ' || c == '\t' || c == '\n' || c == '\r'

/-- The character class of the regex `[.,!?;:()]+$` used in
`DataManager._normalize_question`. -/
def isPunctChar (c : Char) : Bool :=
  c == '.' || c == ',' || c == '!' || c == '?' ||
  c == ';' || c == ':' || c == '(' || c == ')'

/-- Python `str.strip()`: drop leading and trailing whitespace. -/
def pyStrip (s : Str) : Str :=
  ((s.dropWhile isWsChar).reverse.dropWhile isWsChar).reverse

/-- Python `str.split()` with no separator argument: split on runs of
whitespace, producing no empty fields.  Written as a structural one-pass
recursion so that it reduces in the kernel; the lemma `splitWs_cons_neg`
below proves the transparent characterisation
`splitWs (c :: cs) = (c :: cs.takeWhile (!isWsChar ·)) :: splitWs (cs.dropWhile (!isWsChar ·))`
for a non-whitespace `c`. -/
def splitWs : Str → List Str
  | [] => []
  | c :: cs =>
    let rest := splitWs cs
    if isWsChar c then rest
    else
      match cs with
      | [] => [[c]]
      | d :: _ =>
        if isWsChar d then [c] :: rest
        else
          match rest with
          | w :: ws => (c :: w) :: ws
          | [] => [[c]]

/-- Python `' '.join(parts)`. -/
def joinSpace : List Str → Str
  | [] => []
  | [w] => w
  | w :: ws => w ++ ' ' :: joinSpace ws

/-- Python `str.lower()`, character-wise.  `Char.toLower` lower-cases the
basic latin letters, which is the case distinction the proofs depend on. -/
def lowerStr (s : Str) : Str := s.map Char.toLower

/-- `re.sub(r'[.,!?;:()]+$', '', s)`: remove the trailing run of
sentence-ending punctuation. -/
def stripTrailingPunct (s : Str) : Str :=
  (s.reverse.dropWhile isPunctChar).reverse

/-- `DataManager._normalize_question`:
`normalized = ' '.join(question.strip().split()).lower()` followed by
`re.sub(r'[.,!?;:()]+$', '', normalized)`. -/
def normalize (question : Str) : Str :=
  stripTrailingPunct (lowerStr (joinSpace (splitWs (pyStrip question))))

/-- The string does not start with a whitespace character (used to state
when `normalize` is idempotent). -/
def noLeadWs : Str → Bool
  | [] => true
  | c :: _ => !isWsChar c

/-- No two adjacent whitespace characters occur in the string. -/
def noAdjWs : Str → Bool
  | c :: d :: rest => (!(isWsChar c && isWsChar d)) && noAdjWs (d :: rest)
  | _ => true

/-- The string does not end with a whitespace character. -/
def noTrailWs (s : Str) : Bool :=
  match s.getLast? with
  | some c => !isWsChar c
  | none => true

/-! ## Conversation turns and the per-user context window (`bot.py`) -/

/-- The `role` field of a conversation turn. -/
inductive Role
  | user
  | assistant
  | system
deriving DecidableEq

/-- One message dict `{"role": ..., "content": ...}`. -/
structure Turn where
  role : Role
  content : Str
deriving DecidableEq

/-- `get_gpt_response` caps every context at the 30 most recent turns. -/
def maxTurns : Nat := 30

/-- `if len(ctx) > 30: ctx = ctx[-30:]` in `get_gpt_response`
(`x[-30:]` keeps the final 30 elements). -/
def trimContext (ctx : List Turn) : List Turn :=
  if maxTurns < ctx.length then ctx.drop (ctx.length - maxTurns) else ctx

/-- The context-window effect of `TelegramBot.get_gpt_response`: append the
user turn, trim to the most recent 30, call the API (the outcome of
`call_openai_with_retry` is the `apiResult` parameter) and append the
assistant turn only on a truthy (non-`None`, non-empty) response.  Returns
the new window and the value `get_gpt_response` returns. -/
def getGptResponse (ctx : List Turn) (message : Str) (apiResult : Option Str) :
    List Turn × Option Str :=
  let ctx1 := ctx ++ [⟨Role.user, message⟩]
  let ctx2 := trimContext ctx1
  match apiResult with
  | some r => if r = [] then (ctx2, none) else (ctx2 ++ [⟨Role.assistant, r⟩], some r)
  | none => (ctx2, none)

/-- `get_gpt_response` folded over a sequence of (message, api outcome)
pairs, starting from the empty window a fresh user gets. -/
def runConversation (steps : List (Str × Option Str)) : List Turn :=
  steps.foldl (fun ctx s => (getGptResponse ctx s.1 s.2).1) []

/-! ## Completion gateway: `call_openai_with_retry` -/

/-- Outcome of one attempt to call the completion service: an exception
from the client, a response without choices (the branch logging
"Empty response"), or a response whose first choice has the given
content. -/
inductive ApiOutcome
  | err
  | empty
  | ok (content : Str)
deriving DecidableEq

/-- Observable events of one `call_openai_with_retry` invocation. -/
inductive RetryEvent
  | call (attempt : Nat)
  | wait (seconds : Nat)
deriving DecidableEq

/-- The `for attempt in range(max_retries)` loop of
`call_openai_with_retry`, with `fuel` iterations left: on success return
the stripped content; on an empty response retry immediately; on an error
sleep `2 ** attempt` and retry, except on the final attempt
(`attempt == max_retries - 1`) where it returns `None` at once.  The trace
of calls and sleeps is recorded alongside the result. -/
def retryLoop (oracle : Nat → ApiOutcome) (maxRetries : Nat) :
    Nat → Nat → Option Str × List RetryEvent
  | _, 0 => (none, [])
  | attempt, fuel + 1 =>
    match oracle attempt with
    | .ok content => (some (pyStrip content), [.call attempt])
    | .empty =>
      let rest := retryLoop oracle maxRetries (attempt + 1) fuel
      (rest.1, .call attempt :: rest.2)
    | .err =>
      if attempt < maxRetries - 1 then
        let rest := retryLoop oracle maxRetries (attempt + 1) fuel
        (rest.1, .call attempt :: .wait (2 ^ attempt) :: rest.2)
      else (none, [.call attempt])

/-- `call_openai_with_retry(messages, max_retries)`: run the loop from
attempt 0.  The `oracle` gives the outcome of each attempt. -/
def callOpenaiWithRetry (oracle : Nat → ApiOutcome) (maxRetries : Nat) :
    Option Str × List RetryEvent :=
  retryLoop oracle maxRetries 0 maxRetries

/-! ## Reply delivery: `send_long_message` -/

/-- Observable delivery events: a `reply_text` call and an
`asyncio.sleep`. -/
inductive SendEvent
  | message (text : Str)
  | pause (seconds : Nat)
deriving DecidableEq

/-- The default `max_length` of `send_long_message`. -/
def maxLength : Nat := 4000

/-- `[text[i:i + max_length] for i in range(0, len(text), max_length)]`,
written with explicit fuel so it reduces in the kernel; `chunkList_cons`
below recovers the transparent take/drop recursion. -/
def chunksGo : Nat → Str → List Str
  | _, [] => []
  | 0, l => [l]
  | fuel + 1, l => l.take maxLength :: chunksGo fuel (l.drop maxLength)

/-- The chunk list of `send_long_message`. -/
def chunkList (text : Str) : List Str := chunksGo text.length text

/-- `"... "`, the continuation marker prepended to every chunk after the
first. -/
def continuationMark : Str := "... ".data

/-- `TelegramBot.send_long_message`: short texts are sent whole; long
texts are split into chunks, the first sent as-is, every later chunk sent
with the continuation marker and followed by a 1-second sleep. -/
def sendLongMessage (text : Str) : List SendEvent :=
  if text.length ≤ maxLength then [.message text]
  else
    match chunkList text with
    | [] => []
    | c :: cs =>
      .message c :: cs.flatMap (fun ch => [.message (continuationMark ++ ch), .pause 1])

/-! ## Durable store: `data_manager.py` -/

/-- One value of the `qa_pairs` mapping. -/
structure QARecord where
  question : Str
  answer : Str
  created : Str
  usage_count : Nat
deriving DecidableEq

/-- The `metadata` object; `last_updated` is absent until the first
`_save_data`. -/
structure Metadata where
  created : Str
  version : Str
  total_qa_pairs : Nat
  last_updated : Option Str
deriving DecidableEq

/-- The contents of `data.json`: metadata plus the mapping of normalized
question to record, modelled as an insertion-ordered association list
(a Python dict). -/
structure Store where
  metadata : Metadata
  qa_pairs : List (Str × QARecord)
deriving DecidableEq

/-- The structure written by `_create_initial_data_file`. -/
def initialData (now : Str) : Store :=
  { metadata := { created := now
                  version := "1.0".data
                  total_qa_pairs := 0
                  last_updated := none }
    qa_pairs := [] }

/-- Python dict assignment `d[k] = v`: replace in place when the key is
present, else append at the end (insertion order is preserved). -/
def dictInsert (key : Str) (val : QARecord) :
    List (Str × QARecord) → List (Str × QARecord)
  | [] => [(key, val)]
  | p :: rest => if p.1 = key then (key, val) :: rest else p :: dictInsert key val rest

/-- Python dict lookup `d.get(k)`. -/
def dictGet (key : Str) : List (Str × QARecord) → Option QARecord
  | [] => none
  | p :: rest => if p.1 = key then some p.2 else dictGet key rest

/-- The metadata refresh performed by `_save_data` before writing:
set `last_updated` and recount `total_qa_pairs`. -/
def saveData (d : Store) (now : Str) : Store :=
  { d with metadata := { d.metadata with
                         last_updated := some now
                         total_qa_pairs := d.qa_pairs.length } }

/-- `DataManager.save_qa_pair` (its store-level effect; the file protocol
is modelled separately below): normalize the question, upsert the record
with `usage_count = 1` and the original question text, then apply
`_save_data`'s metadata refresh. -/
def saveQaPair (store : Store) (question answer : Str) (now : Str) : Store :=
  let qa := dictInsert (normalize question) ⟨question, answer, now, 1⟩ store.qa_pairs
  saveData { store with qa_pairs := qa } now

/-- Contents of one file on disk.  `open(path, 'w')` truncates the file
first, so until the following `json.dump` finishes the file holds
incomplete, unparsable data (`truncated`); a finished dump leaves a
complete serialized store (`full`). -/
inductive FileContent
  | truncated
  | full (d : Store)
deriving DecidableEq

/-- The two files the durable-store writes touch: the real `data.json`
and the temporary `data.json.tmp`.  `none` means the file is absent. -/
structure FileState where
  real : Option FileContent
  tmp : Option FileContent
deriving DecidableEq

/-- `open(temp_file, 'w')` truncating the temporary file. -/
def truncateTmp (fs : FileState) : FileState := { fs with tmp := some .truncated }

/-- `json.dump(data, f)` completing on the temporary file. -/
def writeTmp (fs : FileState) (d : Store) : FileState := { fs with tmp := some (.full d) }

/-- `os.replace(temp_file, data_file)`: an atomic rename. -/
def replaceReal (fs : FileState) : FileState :=
  match fs.tmp with
  | some c => { real := some c, tmp := none }
  | none => fs

/-- The file-system states visible at the crash points of `_save_data`'s
write protocol: before anything, after the temporary file is truncated,
after the dump into the temporary file completes, and after the atomic
replace. -/
def saveDataStates (fs : FileState) (d : Store) (now : Str) : List FileState :=
  let d2 := saveData d now
  [fs, truncateTmp fs, writeTmp (truncateTmp fs) d2,
   replaceReal (writeTmp (truncateTmp fs) d2)]

/-- A direct `open(self.data_file, 'w')` followed by `json.dump(data, f)`
on the real file — the protocol of `_create_initial_data_file` and of
`_verify_data_file`'s repair write-back, which do not go through the
temporary file: the real file is truncated first and holds the new
contents only once the dump finishes. -/
def directWriteStates (fs : FileState) (d : Store) : List FileState :=
  [fs, { fs with real := some .truncated }, { fs with real := some (.full d) }]

/-- `_create_initial_data_file` (run at initialization, by `clear_cache`
and by corruption recovery): a direct write of the initial store. -/
def createInitialDataFileStates (fs : FileState) (now : Str) : List FileState :=
  directWriteStates fs (initialData now)

/-- What `json.load` of `data.json` can yield, seen through the checks of
`_verify_data_file`: a decode failure (`none` outside), a JSON value that
is not an object, or an object with optional `metadata` and `qa_pairs`
fields. -/
inductive ParsedFile
  | notObject
  | object (metadata : Option Metadata) (qa_pairs : Option (List (Str × QARecord)))
deriving DecidableEq

/-- `_verify_data_file`: a decode error or a non-object is recreated as
the initial store; an object has a missing `qa_pairs` replaced by `{}` and
a missing `metadata` rebuilt with `total_qa_pairs = len(qa_pairs)`, and
the corrected structure is written back.  Returns the resulting file
contents. -/
def verifyDataFile (parsed : Option ParsedFile) (now : Str) : Store :=
  match parsed with
  | none => initialData now
  | some .notObject => initialData now
  | some (.object m q) =>
    let qa := q.getD []
    { metadata := m.getD { created := now
                           version := "1.0".data
                           total_qa_pairs := qa.length
                           last_updated := none }
      qa_pairs := qa }

/-- `_load_data`: on a decode error the file is recreated and re-read,
yielding the initial store; otherwise the parsed value is returned as-is
(this path performs no repair of missing fields). -/
def loadData (parsed : Option ParsedFile) (now : Str) : ParsedFile :=
  match parsed with
  | none => .object (some (initialData now).metadata) (some [])
  | some j => j

/-- `DataManager.get_cached_response`: intentionally disabled, every
lookup misses. -/
def getCachedResponse (question : Str) : Option Str := none

/-- The body of the loop in `DataManager._find_similar_question`: keep
the strictly best similarity seen so far together with its answer. -/
def findSimilarStep (ratio : Str → Str → ℚ) (question : Str)
    (best : ℚ × Option Str) (p : Str × QARecord) : ℚ × Option Str :=
  let similarity := ratio question p.1
  if best.1 < similarity then (similarity, some p.2.answer) else best

/-- `DataManager._find_similar_question`.  `difflib.SequenceMatcher.ratio`
is Python standard-library code, abstracted here as the `ratio` parameter
(rational-valued, standing for the float ratio).  The fold starts from the
0.85 minimum-similarity threshold with no match. -/
def findSimilarQuestion (ratio : Str → Str → ℚ) (question : Str)
    (qa_pairs : List (Str × QARecord)) : Option Str :=
  (qa_pairs.foldl (findSimilarStep ratio question) ((0.85 : ℚ), none)).2

/-! ## Orchestrator: `get_response` and `handle_message` -/

/-- The fixed fallback reply of `handle_message` when `get_response`
yields nothing. -/
def fallbackReply : Str :=
  "أعتذر، لم أتمكن من الاستجابة بشكل مناسب. يرجى المحاولة مرة أخرى.".data

/-- `TelegramBot.get_response` (with the OpenAI client available): query
GPT, then save the pair to the cache only for substantial replies
(`len(response) > 20`).  Returns the new window, the new store and the
reply. -/
def getResponse (store : Store) (ctx : List Turn) (message : Str)
    (apiResult : Option Str) (now : Str) : List Turn × Store × Option Str :=
  let res := getGptResponse ctx message apiResult
  match res.2 with
  | some r =>
    if 20 < r.length then (res.1, saveQaPair store message r now, some r)
    else (res.1, store, some r)
  | none => (res.1, store, none)

/-- `TelegramBot.handle_message`: strip the text, ignore it when empty,
otherwise run `get_response` on that user's window and either deliver the
reply via `send_long_message` or send the fixed fallback reply. -/
def handleMessage (contexts : Nat → List Turn) (store : Store) (userId : Nat)
    (text : Str) (apiResult : Option Str) (now : Str) :
    (Nat → List Turn) × Store × List SendEvent :=
  let userMessage := pyStrip text
  if userMessage = [] then (contexts, store, [])
  else
    let res := getResponse store (contexts userId) userMessage apiResult now
    let contexts2 := fun u => if u = userId then res.1 else contexts u
    match res.2.2 with
    | some r =>
      if r = [] then (contexts2, res.2.1, [.message fallbackReply])
      else (contexts2, res.2.1, sendLongMessage r)
    | none => (contexts2, res.2.1, [.message fallbackReply])

/-! ## Equations for `splitWs` -/

theorem splitWs_nil : splitWs [] = [] := rfl

theorem splitWs_cons_pos {c : Char} (cs : Str) (h : isWsChar c = true) :
    splitWs (c :: cs) = splitWs cs := by
  simp [splitWs, h]

theorem splitWs_cons_neg {c : Char} (cs : Str) (h : isWsChar c = false) :
    splitWs (c :: cs) =
      (c :: cs.takeWhile (fun d => !isWsChar d)) ::
        splitWs (cs.dropWhile (fun d => !isWsChar d)) := by
  induction cs generalizing c with
  | nil => simp [splitWs, h]
  | cons d cs ih =>
    by_cases hd : isWsChar d = true
    · simp [splitWs, h, hd]
    · have hd' : isWsChar d = false := by simpa using hd
      have hrec := ih (c := d) hd'
      simp only [List.takeWhile_cons, List.dropWhile_cons, hd', Bool.not_false, if_pos]
      simp only [splitWs, h, hd', Bool.false_eq_true, if_neg, not_false_iff] at hrec ⊢
      rw [hrec]

/-! ## Helper lemmas about the context window -/

theorem trimContext_length_le (ctx : List Turn) :
    (trimContext ctx).length ≤ maxTurns := by
  unfold trimContext
  split
  · simp only [List.length_drop]
    omega
  · omega

theorem trimContext_length_eq (ctx : List Turn) :
    (trimContext ctx).length = min ctx.length maxTurns := by
  unfold trimContext
  split
  · simp only [List.length_drop]
    omega
  · omega

theorem trimContext_suffix (ctx : List Turn) : trimContext ctx <:+ ctx := by
  unfold trimContext
  split
  · exact List.drop_suffix _ _
  · exact List.suffix_refl _

theorem getLast?_of_suffix {α : Type} {s l : List α} (h : s <:+ l) (hs : s ≠ []) :
    l.getLast? = s.getLast? := by
  obtain ⟨t, rfl⟩ := h
  rw [List.getLast?_append]
  cases he : s.getLast? with
  | none => exact absurd (List.getLast?_eq_none_iff.mp he) hs
  | some a => rfl

/-! ## C1: the context-window bound invariant -/

/-- **C1** (amended).  For every reachable window and every handled
message: after the user-turn append the window is trimmed to at most
`maxTurns = 30` turns, and the trimmed window is a suffix (the most
recent turns) of the appended window of length `min (length + 1) 30`;
the assistant reply is appended after this trim, so after the full
`get_gpt_response` step the window holds at most `maxTurns + 1 = 31`
turns (and the 31st does occur, see the counterexample). -/
theorem contextWindow_bound_after_appends (steps : List (Str × Option Str))
    (message : Str) (apiResult : Option Str) :
    (trimContext (runConversation steps ++ [⟨Role.user, message⟩])).length ≤ maxTurns
    ∧ trimContext (runConversation steps ++ [⟨Role.user, message⟩]) <:+
        (runConversation steps ++ [⟨Role.user, message⟩])
    ∧ (trimContext (runConversation steps ++ [⟨Role.user, message⟩])).length =
        min ((runConversation steps).length + 1) maxTurns
    ∧ (getGptResponse (runConversation steps) message apiResult).1.length ≤ maxTurns + 1 := by
  refine ⟨trimContext_length_le _, trimContext_suffix _, ?_, ?_⟩
  · rw [trimContext_length_eq]
    simp
  · unfold getGptResponse
    cases apiResult with
    | none => exact Nat.le_succ_of_le (trimContext_length_le _)
    | some r =>
      by_cases hr : r = []
      · simp only [hr, if_pos rfl]
        exact Nat.le_succ_of_le (trimContext_length_le _)
      · simp only [if_neg hr, List.length_append, List.length_cons, List.length_nil]
        have := trimContext_length_le (runConversation steps ++ [⟨Role.user, message⟩])
        omega

/-- **C1 counterexample**: after 16 successful exchanges starting from
the empty window, the window holds 31 turns, so the claimed bound
"at most 30 after each append, including the append of the assistant
reply" is violated by the code. -/
theorem contextWindow_thirty_exceeded :
    (runConversation (List.replicate 16 ("hi".data, some "ok".data))).length = 31
    ∧ ¬ (runConversation (List.replicate 16 ("hi".data, some "ok".data))).length ≤ maxTurns := by
  decide

/-! ## C2: the retry/backoff bound -/

/-- **C2** (amended).  For every completion service that fails on every
attempt (by error or by empty response), `call_openai_with_retry` makes
exactly `max_retries = 3` sequential attempts (numbered 0, 1, 2) and
returns `None` (the `ServiceError` of the spec) instead of raising; a
backoff wait of `2 ** attempt` time units separates consecutive attempts
only when the failure was a raised transport/service error — an
empty-response failure retries immediately with no wait (see the
counterexample). -/
theorem retry_always_fail (oracle : Nat → ApiOutcome)
    (h : ∀ i content, oracle i ≠ ApiOutcome.ok content) :
    callOpenaiWithRetry oracle 3 =
      (none,
        RetryEvent.call 0 :: ((if oracle 0 = .err then [RetryEvent.wait 1] else []) ++
        RetryEvent.call 1 :: ((if oracle 1 = .err then [RetryEvent.wait 2] else []) ++
        [RetryEvent.call 2])))
    ∧ ((callOpenaiWithRetry oracle 3).2.filter
        (fun e => match e with | .call _ => true | _ => false)) =
      [RetryEvent.call 0, RetryEvent.call 1, RetryEvent.call 2] := by
  have h0 := h 0
  have h1 := h 1
  have h2 := h 2
  cases o0 : oracle 0 with
  | ok c => exact absurd o0 (h0 c)
  | empty =>
    cases o1 : oracle 1 with
    | ok c => exact absurd o1 (h1 c)
    | empty =>
      cases o2 : oracle 2 with
      | ok c => exact absurd o2 (h2 c)
      | empty => simp [callOpenaiWithRetry, retryLoop, o0, o1, o2]
      | err => simp [callOpenaiWithRetry, retryLoop, o0, o1, o2]
    | err =>
      cases o2 : oracle 2 with
      | ok c => exact absurd o2 (h2 c)
      | empty => simp [callOpenaiWithRetry, retryLoop, o0, o1, o2]
      | err => simp [callOpenaiWithRetry, retryLoop, o0, o1, o2]
  | err =>
    cases o1 : oracle 1 with
    | ok c => exact absurd o1 (h1 c)
    | empty =>
      cases o2 : oracle 2 with
      | ok c => exact absurd o2 (h2 c)
      | empty => simp [callOpenaiWithRetry, retryLoop, o0, o1, o2]
      | err => simp [callOpenaiWithRetry, retryLoop, o0, o1, o2]
    | err =>
      cases o2 : oracle 2 with
      | ok c => exact absurd o2 (h2 c)
      | empty => simp [callOpenaiWithRetry, retryLoop, o0, o1, o2]
      | err => simp [callOpenaiWithRetry, retryLoop, o0, o1, o2]

/-- **C2 witness**: for the service that raises on every attempt, the
trace is exactly call 0, wait 1 = 2^0, call 1, wait 2 = 2^1, call 2, and
the result is `None`. -/
theorem retry_always_fail_witness :
    callOpenaiWithRetry (fun _ => ApiOutcome.err) 3 =
      (none, [RetryEvent.call 0, RetryEvent.wait 1, RetryEvent.call 1,
              RetryEvent.wait 2, RetryEvent.call 2]) := by
  have h := retry_always_fail (fun _ => ApiOutcome.err)
    (fun i content hc => ApiOutcome.noConfusion hc)
  simpa using h.1

/-- **C2 counterexample**: a service that returns an empty/malformed
response on every attempt is retried with *no* wait at all between the
three attempts, contradicting the claimed `2 ** attempt` wait between
consecutive attempts. -/
theorem retry_empty_no_backoff :
    callOpenaiWithRetry (fun _ => ApiOutcome.empty) 3 =
      (none, [RetryEvent.call 0, RetryEvent.call 1, RetryEvent.call 2])
    ∧ (callOpenaiWithRetry (fun _ => ApiOutcome.empty) 3).2 ≠
      [RetryEvent.call 0, RetryEvent.wait 1, RetryEvent.call 1,
       RetryEvent.wait 2, RetryEvent.call 2]
    ∧ ∀ e ∈ (callOpenaiWithRetry (fun _ => ApiOutcome.empty) 3).2,
        ∀ n, e ≠ RetryEvent.wait n := by
  refine ⟨by decide, by decide, ?_⟩
  intro e he n
  have : (callOpenaiWithRetry (fun _ => ApiOutcome.empty) 3).2 =
      [RetryEvent.call 0, RetryEvent.call 1, RetryEvent.call 2] := by decide
  rw [this] at he
  simp only [List.mem_cons, List.not_mem_nil, or_false] at he
  rcases he with rfl | rfl | rfl
  all_goals exact fun hc => RetryEvent.noConfusion hc

/-! ## C5: atomicity of the durable-store writes -/

/-- **C5** (amended).  `_save_data` — the durable-store write used by
`save_qa_pair` — writes the complete new contents to the temporary file
and only then atomically replaces the real file: at every crash point of
that protocol the real file still holds the original contents, and only
the final replace switches it, in one step, to the complete saved store.
But not every write of the durable store follows this protocol:
`_create_initial_data_file` (run at initialization, by `clear_cache` and
by corruption recovery) and `_verify_data_file`'s repair write-back open
`data.json` itself for writing, so between their truncation of the real
file and the completion of the dump the store file is incomplete — see
the counterexample. -/
theorem storeWriteProtocols (fs : FileState) (d : Store) (now : Str) :
    (saveDataStates fs d now).map FileState.real =
      [fs.real, fs.real, fs.real, some (.full (saveData d now))]
    ∧ (∀ s ∈ saveDataStates fs d now,
        s.real = fs.real ∨ s.real = some (.full (saveData d now)))
    ∧ (directWriteStates fs d).map FileState.real =
        [fs.real, some .truncated, some (.full d)]
    ∧ (createInitialDataFileStates fs now).map FileState.real =
        [fs.real, some .truncated, some (.full (initialData now))] := by
  refine ⟨?_, ?_, rfl, rfl⟩
  · simp [saveDataStates, truncateTmp, writeTmp, replaceReal]
  · intro s hs
    simp only [saveDataStates, List.mem_cons, List.mem_singleton,
      List.not_mem_nil, or_false] at hs
    rcases hs with rfl | rfl | rfl | rfl
    · exact Or.inl rfl
    · exact Or.inl rfl
    · exact Or.inl rfl
    · exact Or.inr rfl

/-- **C5 counterexample**: starting from a real file holding a complete
store, a crash between `_create_initial_data_file`'s truncation of
`data.json` and the completion of its `json.dump` leaves the real file
in the incomplete `truncated` state — neither the original contents nor
any complete store — so "every write of the durable store first writes
the complete new contents to a temporary file and then atomically
replaces the real file" is false of the code. -/
theorem createInitialDataFile_not_atomic :
    ((createInitialDataFileStates
        { real := some (.full (initialData "t".data)), tmp := none } "u".data).map
        FileState.real).get? 1 = some (some FileContent.truncated)
    ∧ (some FileContent.truncated : Option FileContent) ≠
        some (.full (initialData "t".data))
    ∧ ∀ d : Store, (some FileContent.truncated : Option FileContent) ≠ some (.full d) := by
  refine ⟨by decide, by decide, ?_⟩
  intro d hc
  exact FileContent.noConfusion (Option.some.inj hc)

/-! ## C6: corruption handling on reads -/

/-- **C6** (amended).  A file with invalid encoding (a decode failure) or
whose top level is not an object is silently re-initialized to the empty
well-formed store, and `_load_data` also yields the fresh initial store
after a decode error; but an object merely *missing* top-level fields is
not re-initialized: `_verify_data_file` repairs it in place — a missing
`qa_pairs` becomes `{}`, a missing `metadata` is rebuilt with
`total_qa_pairs` equal to the count of the *preserved* records — and
`_load_data` returns such an object entirely as-is.  No error propagates
to the caller in any of these cases (all the modelled operations are
total). -/
theorem verify_load_corruption (now : Str) (m : Metadata)
    (qps : List (Str × QARecord)) :
    verifyDataFile none now = initialData now
    ∧ verifyDataFile (some ParsedFile.notObject) now = initialData now
    ∧ (verifyDataFile (some (ParsedFile.object none (some qps))) now).qa_pairs = qps
    ∧ (verifyDataFile (some (ParsedFile.object none (some qps))) now).metadata.total_qa_pairs
        = qps.length
    ∧ verifyDataFile (some (ParsedFile.object (some m) none)) now =
        { metadata := m, qa_pairs := [] }
    ∧ verifyDataFile (some (ParsedFile.object (some m) (some qps))) now =
        { metadata := m, qa_pairs := qps }
    ∧ loadData none now = ParsedFile.object (some (initialData now).metadata) (some [])
    ∧ (∀ j, loadData (some j) now = j) :=
  ⟨rfl, rfl, rfl, rfl, rfl, rfl, rfl, fun _ => rfl⟩

/-- **C6 counterexample**: a parsed file missing the `metadata` top-level
field but holding one record is *not* re-initialized to the empty
structure: the record survives and `total_qa_pairs` becomes 1, not 0. -/
theorem verify_missing_metadata_keeps_records :
    (verifyDataFile (some (ParsedFile.object none
        (some [("k".data, ⟨"k".data, "v".data, "t".data, 1⟩)]))) "t".data).qa_pairs ≠ []
    ∧ (verifyDataFile (some (ParsedFile.object none
        (some [("k".data, ⟨"k".data, "v".data, "t".data, 1⟩)]))) "t".data)
        ≠ initialData "t".data
    ∧ Metadata.total_qa_pairs (Store.metadata (verifyDataFile (some (ParsedFile.object none
        (some [("k".data, ⟨"k".data, "v".data, "t".data, 1⟩)]))) "t".data)) = 1 := by
  refine ⟨by decide, by decide, rfl⟩

/-! ## C10: the substantial-reply cache policy of `get_response` -/

/-- **C10** (confirmed).  After a successful completion, `get_response`
saves the question/answer pair to the cache exactly when the reply is
longer than 20 characters; a reply of length at most 20 (or a failed
completion) leaves the store untouched.  The reply itself is returned
unchanged. -/
theorem getResponse_cache_policy (store : Store) (ctx : List Turn)
    (message : Str) (apiResult : Option Str) (now : Str) :
    (∀ r, (getGptResponse ctx message apiResult).2 = some r →
      (20 < r.length →
        (getResponse store ctx message apiResult now).2.1 =
          saveQaPair store message r now)
      ∧ (r.length ≤ 20 →
        (getResponse store ctx message apiResult now).2.1 = store))
    ∧ ((getGptResponse ctx message apiResult).2 = none →
        (getResponse store ctx message apiResult now).2.1 = store)
    ∧ (getResponse store ctx message apiResult now).2.2 =
        (getGptResponse ctx message apiResult).2 := by
  refine ⟨?_, ?_, ?_⟩
  · intro r hr
    constructor
    · intro hlen
      simp [getResponse, hr, hlen]
    · intro hlen
      simp [getResponse, hr, Nat.not_lt.mpr hlen]
  · intro hr
    simp [getResponse, hr]
  · cases hr : (getGptResponse ctx message apiResult).2 with
    | none => simp [getResponse, hr]
    | some r =>
      by_cases h20 : 20 < r.length <;> simp [getResponse, hr, h20]

/-- **C10 witness**: a 21-character reply is saved; a 20-character reply
is not. -/
theorem getResponse_cache_policy_witness :
    (getResponse (initialData "t".data) [] "hi".data
        (some "123456789012345678901".data) "t".data).2.1 =
      saveQaPair (initialData "t".data) "hi".data "123456789012345678901".data "t".data
    ∧ (getResponse (initialData "t".data) [] "hi".data
        (some "12345678901234567890".data) "t".data).2.1 = initialData "t".data := by
  constructor
  · exact ((getResponse_cache_policy (initialData "t".data) [] "hi".data
      (some "123456789012345678901".data) "t".data).1
      "123456789012345678901".data (by decide)).1 (by decide)
  · exact ((getResponse_cache_policy (initialData "t".data) [] "hi".data
      (some "12345678901234567890".data) "t".data).1
      "12345678901234567890".data (by decide)).2 (by decide)

/-! ## C7: ServiceError handling in `handle_message` -/

theorem trimContext_ne_nil {ctx : List Turn} (h : ctx ≠ []) : trimContext ctx ≠ [] := by
  intro hc
  have hl := trimContext_length_eq ctx
  rw [hc] at hl
  simp only [List.length_nil, maxTurns] at hl
  have hz : ctx.length = 0 := by omega
  exact h (List.length_eq_zero.mp hz)

/-- **C7** (confirmed).  When the completion gateway fails on all
attempts (`call_openai_with_retry` returns `None`), `handle_message`
sends exactly the fixed apology text, appends no assistant turn — the
user's window becomes the trimmed old window plus the user turn, whose
last element is that user turn — other users' windows and the durable
store are untouched. -/
theorem handleMessage_service_error (contexts : Nat → List Turn) (store : Store)
    (userId : Nat) (text : Str) (now : Str) (h : pyStrip text ≠ []) :
    (handleMessage contexts store userId text none now).2.2 =
        [SendEvent.message fallbackReply]
    ∧ (handleMessage contexts store userId text none now).1 userId =
        trimContext (contexts userId ++ [⟨Role.user, pyStrip text⟩])
    ∧ ((handleMessage contexts store userId text none now).1 userId).getLast? =
        some ⟨Role.user, pyStrip text⟩
    ∧ (∀ u, u ≠ userId → (handleMessage contexts store userId text none now).1 u =
        contexts u)
    ∧ (handleMessage contexts store userId text none now).2.1 = store := by
  have hclast : ((contexts userId ++ [(⟨Role.user, pyStrip text⟩ : Turn)])).getLast? =
      some ⟨Role.user, pyStrip text⟩ := by
    simp
  have hsfx := trimContext_suffix (contexts userId ++ [⟨Role.user, pyStrip text⟩])
  have hne : trimContext (contexts userId ++ [(⟨Role.user, pyStrip text⟩ : Turn)]) ≠ [] :=
    trimContext_ne_nil (by simp)
  have hlast := getLast?_of_suffix hsfx hne
  refine ⟨?_, ?_, ?_, ?_, ?_⟩
  · simp [handleMessage, getResponse, getGptResponse, h]
  · simp [handleMessage, getResponse, getGptResponse, h]
  · have h2 : (handleMessage contexts store userId text none now).1 userId =
        trimContext (contexts userId ++ [⟨Role.user, pyStrip text⟩]) := by
      simp [handleMessage, getResponse, getGptResponse, h]
    rw [h2, ← hlast, hclast]
  · intro u hu
    simp [handleMessage, getResponse, getGptResponse, h, hu]
  · simp [handleMessage, getResponse, getGptResponse, h]

/-- **C7 witness** at a concrete state: user 42 sends `" hello "`, the
gateway fails, the apology is sent and the window holds exactly the
stripped user turn. -/
theorem handleMessage_service_error_witness :
    (handleMessage (fun _ => []) (initialData "t".data) 42 " hello ".data none "t".data).2.2 =
        [SendEvent.message fallbackReply]
    ∧ (handleMessage (fun _ => []) (initialData "t".data) 42 " hello ".data none "t".data).1 42 =
        [⟨Role.user, "hello".data⟩] := by
  have H := handleMessage_service_error (fun _ => []) (initialData "t".data) 42
    " hello ".data "t".data (by decide)
  refine ⟨H.1, ?_⟩
  rw [H.2.1]
  decide

/-! ## C4: durability and overwrite semantics of `save_qa_pair` -/

theorem dictGet_dictInsert_self (key : Str) (val : QARecord)
    (l : List (Str × QARecord)) :
    dictGet key (dictInsert key val l) = some val := by
  induction l with
  | nil => simp [dictInsert, dictGet]
  | cons p rest ih =>
    by_cases hp : p.1 = key
    · simp [dictInsert, dictGet, hp]
    · simp [dictInsert, dictGet, hp, ih]

theorem map_fst_dictInsert (key : Str) (val : QARecord)
    (l : List (Str × QARecord)) :
    (dictInsert key val l).map Prod.fst =
      if key ∈ l.map Prod.fst then l.map Prod.fst else l.map Prod.fst ++ [key] := by
  induction l with
  | nil => simp [dictInsert]
  | cons p rest ih =>
    by_cases hp : p.1 = key
    · have hmem : key ∈ ((p :: rest).map Prod.fst) := by
        simp only [List.map_cons, List.mem_cons]
        exact Or.inl hp.symm
      rw [if_pos hmem]
      simp [dictInsert, hp]
    · have hiff : key ∈ ((p :: rest).map Prod.fst) ↔ key ∈ rest.map Prod.fst := by
        simp only [List.map_cons, List.mem_cons]
        constructor
        · rintro (hk | hk)
          · exact absurd hk.symm hp
          · exact hk
        · exact Or.inr
      by_cases hk : key ∈ rest.map Prod.fst
      · rw [if_pos (hiff.mpr hk)]
        simp [dictInsert, hp, ih, hk]
      · rw [if_neg (fun hc => hk (hiff.mp hc))]
        simp [dictInsert, hp, ih, hk]

theorem nodup_keys_dictInsert {l : List (Str × QARecord)} (key : Str)
    (val : QARecord) (h : (l.map Prod.fst).Nodup) :
    ((dictInsert key val l).map Prod.fst).Nodup := by
  rw [map_fst_dictInsert]
  by_cases hk : key ∈ l.map Prod.fst
  · rwa [if_pos hk]
  · rw [if_neg hk]
    simp [List.nodup_append, h, hk]

/-- **C4** (confirmed).  After `save_qa_pair(q, a)` the store contains a
record keyed by `normalize q` with answer `a` and `usage_count = 1`;
`total_qa_pairs` equals the number of records, which (keys staying
distinct) is the number of distinct normalized keys; and the two-save
scenario overwrites the single shared key, leaving `total_qa_pairs = 1`
and the answer `"five"`.  By the temp-file-then-replace protocol of
`_save_data`, the store-level state proved here is exactly what a fresh
load reads back after the atomic replace. -/
theorem saveQaPair_spec (store : Store) (question answer now : Str)
    (h : (store.qa_pairs.map Prod.fst).Nodup) :
    dictGet (normalize question) (saveQaPair store question answer now).qa_pairs =
        some ⟨question, answer, now, 1⟩
    ∧ (saveQaPair store question answer now).metadata.total_qa_pairs =
        (saveQaPair store question answer now).qa_pairs.length
    ∧ ((saveQaPair store question answer now).qa_pairs.map Prod.fst).Nodup
    ∧ (saveQaPair store question answer now).metadata.total_qa_pairs =
        (((saveQaPair store question answer now).qa_pairs.map Prod.fst).dedup).length
    ∧ (saveQaPair (saveQaPair (initialData "t".data) "What is 2+2?".data "4".data "t".data)
          "what is 2+2?".data "five".data "t".data).metadata.total_qa_pairs = 1
    ∧ dictGet "what is 2+2".data
        (saveQaPair (saveQaPair (initialData "t".data) "What is 2+2?".data "4".data "t".data)
          "what is 2+2?".data "five".data "t".data).qa_pairs =
        some ⟨"what is 2+2?".data, "five".data, "t".data, 1⟩ := by
  have hnodup : ((saveQaPair store question answer now).qa_pairs.map Prod.fst).Nodup := by
    simp only [saveQaPair, saveData]
    exact nodup_keys_dictInsert _ _ h
  refine ⟨?_, ?_, hnodup, ?_, by decide, by decide⟩
  · simp only [saveQaPair, saveData]
    exact dictGet_dictInsert_self _ _ _
  · simp [saveQaPair, saveData]
  · rw [hnodup.dedup]
    simp [saveQaPair, saveData]

/-- **C4 witness** at a concrete empty store. -/
theorem saveQaPair_spec_witness :
    dictGet (normalize "hello".data)
        (saveQaPair (initialData "t".data) "hello".data "world".data "t".data).qa_pairs =
      some ⟨"hello".data, "world".data, "t".data, 1⟩ :=
  (saveQaPair_spec (initialData "t".data) "hello".data "world".data "t".data (by decide)).1

/-! ## C8: reply chunking in `send_long_message` -/

theorem chunksGo_fuel_irrel : ∀ (f1 : Nat) (f2 : Nat) (l : Str),
    l.length ≤ f1 → l.length ≤ f2 → chunksGo f1 l = chunksGo f2 l := by
  intro f1
  induction f1 with
  | zero =>
    intro f2 l h1 _
    have hl : l = [] := List.length_eq_zero.mp (Nat.le_zero.mp h1)
    subst hl
    cases f2 <;> rfl
  | succ g1 ih =>
    intro f2 l h1 h2
    cases l with
    | nil => cases f2 <;> rfl
    | cons c cs =>
      cases f2 with
      | zero => simp at h2
      | succ g2 =>
        show List.take maxLength (c :: cs) :: chunksGo g1 (List.drop maxLength (c :: cs)) =
          List.take maxLength (c :: cs) :: chunksGo g2 (List.drop maxLength (c :: cs))
        congr 1
        apply ih
        · simp only [List.length_drop, List.length_cons, maxLength] at h1 ⊢
          omega
        · simp only [List.length_drop, List.length_cons, maxLength] at h2 ⊢
          omega

theorem chunkList_cons {text : Str} (h : text ≠ []) :
    chunkList text = text.take maxLength :: chunkList (text.drop maxLength) := by
  cases text with
  | nil => exact absurd rfl h
  | cons c cs =>
    show List.take maxLength (c :: cs) :: chunksGo cs.length (List.drop maxLength (c :: cs)) =
      List.take maxLength (c :: cs) :: chunkList (List.drop maxLength (c :: cs))
    congr 1
    apply chunksGo_fuel_irrel
    · simp only [List.length_drop, List.length_cons, maxLength]
      omega
    · rfl

theorem chunkList_flatten_of_le : ∀ (n : Nat) (text : Str), text.length ≤ n →
    (chunkList text).flatten = text := by
  intro n
  induction n with
  | zero =>
    intro text h
    have hl : text = [] := List.length_eq_zero.mp (Nat.le_zero.mp h)
    subst hl
    rfl
  | succ m ih =>
    intro text h
    by_cases ht : text = []
    · subst ht; rfl
    · rw [chunkList_cons ht, List.flatten_cons,
        ih (text.drop maxLength) ?_, List.take_append_drop]
      have hpos : 0 < text.length := List.length_pos.mpr ht
      simp only [List.length_drop, maxLength]
      omega

theorem chunkList_le_maxLength : ∀ (n : Nat) (text : Str), text.length ≤ n →
    ∀ c ∈ chunkList text, c.length ≤ maxLength := by
  intro n
  induction n with
  | zero =>
    intro text h c hc
    have hl : text = [] := List.length_eq_zero.mp (Nat.le_zero.mp h)
    subst hl
    cases hc
  | succ m ih =>
    intro text h c hc
    by_cases ht : text = []
    · subst ht; cases hc
    · rw [chunkList_cons ht, List.mem_cons] at hc
      rcases hc with rfl | hc
      · rw [List.length_take]
        exact Nat.min_le_left _ _
      · refine ih (text.drop maxLength) ?_ c hc
        have hpos : 0 < text.length := List.length_pos.mpr ht
        simp only [List.length_drop, maxLength]
        omega

theorem replicate_ne_nil {α : Type} (n : Nat) (a : α) (h : n ≠ 0) :
    List.replicate n a ≠ [] := by
  intro hc
  have hl := congrArg List.length hc
  rw [List.length_replicate, List.length_nil] at hl
  exact h hl

theorem chunkList_replicate_9000 :
    (chunkList (List.replicate 9000 'a')).map List.length = [4000, 4000, 1000] := by
  have h1 : chunkList (List.replicate 9000 'a') =
      List.replicate 4000 'a' :: chunkList (List.replicate 5000 'a') := by
    rw [chunkList_cons (replicate_ne_nil 9000 'a' (by norm_num)),
      List.take_replicate, List.drop_replicate]
    norm_num [maxLength]
  have h2 : chunkList (List.replicate 5000 'a') =
      List.replicate 4000 'a' :: chunkList (List.replicate 1000 'a') := by
    rw [chunkList_cons (replicate_ne_nil 5000 'a' (by norm_num)),
      List.take_replicate, List.drop_replicate]
    norm_num [maxLength]
  have h3 : chunkList (List.replicate 1000 'a') = [List.replicate 1000 'a'] := by
    rw [chunkList_cons (replicate_ne_nil 1000 'a' (by norm_num)),
      List.take_replicate, List.drop_replicate]
    norm_num [maxLength]
    rfl
  rw [h1, h2, h3]
  simp only [List.map_cons, List.map_nil, List.length_replicate]

/-- **C8** (amended).  A reply longer than 4000 units is delivered as the
ordered chunk list (each chunk of length at most 4000, concatenating back
to the reply): the first chunk is sent as-is, and every later chunk is
sent with the `"... "` continuation marker and *followed* by a 1-second
pause — so a pause separates consecutive prefixed chunks, but no pause
occurs between the first and the second send (see the counterexample).
A reply of length 9000 yields exactly 3 chunks of lengths
4000, 4000, 1000. -/
theorem sendLongMessage_chunks (text : Str) (h : maxLength < text.length) :
    sendLongMessage text =
      SendEvent.message (text.take maxLength) ::
        (chunkList (text.drop maxLength)).flatMap
          (fun ch => [SendEvent.message (continuationMark ++ ch), SendEvent.pause 1])
    ∧ (∀ c ∈ chunkList text, c.length ≤ maxLength)
    ∧ (chunkList text).flatten = text
    ∧ (chunkList (List.replicate 9000 'a')).map List.length = [4000, 4000, 1000] := by
  have htne : text ≠ [] := by
    intro hc
    rw [hc] at h
    simp [maxLength] at h
  refine ⟨?_, chunkList_le_maxLength text.length text le_rfl,
    chunkList_flatten_of_le text.length text le_rfl, chunkList_replicate_9000⟩
  unfold sendLongMessage
  rw [if_neg (Nat.not_le.mpr h), chunkList_cons htne]

/-- **C8 witness**: the amended delivery structure at the concrete reply
`'a' * 4001`. -/
theorem sendLongMessage_chunks_witness :
    sendLongMessage (List.replicate 4001 'a') =
      SendEvent.message ((List.replicate 4001 'a').take maxLength) ::
        (chunkList ((List.replicate 4001 'a').drop maxLength)).flatMap
          (fun ch => [SendEvent.message (continuationMark ++ ch), SendEvent.pause 1]) :=
  (sendLongMessage_chunks (List.replicate 4001 'a')
    (by rw [List.length_replicate]; norm_num [maxLength])).1

/-- **C8 counterexample**: for the reply `'a' * 4001` (length exceeding
4000) the first two delivery events are two consecutive sends — no pause
is observed between the first and the second chunk, contradicting the
claimed pause between chunks. -/
theorem sendLongMessage_no_pause_before_second :
    sendLongMessage (List.replicate 4001 'a') =
      [SendEvent.message (List.replicate 4000 'a'),
       SendEvent.message (continuationMark ++ ['a']), SendEvent.pause 1]
    ∧ ∀ n, (sendLongMessage (List.replicate 4001 'a')).take 2 ≠
        [SendEvent.message (List.replicate 4000 'a'), SendEvent.pause n] := by
  have e1 : List.take maxLength (List.replicate 4001 'a') = List.replicate 4000 'a' := by
    rw [List.take_replicate]
    norm_num [maxLength]
  have e2 : List.drop maxLength (List.replicate 4001 'a') = ['a'] := by
    rw [List.drop_replicate]
    norm_num [maxLength, List.replicate_one]
  have e3 : chunkList ['a'] = [['a']] := by
    rw [chunkList_cons (by simp)]
    rfl
  have hlen : maxLength < (List.replicate 4001 'a').length := by
    rw [List.length_replicate]
    norm_num [maxLength]
  have hmain : sendLongMessage (List.replicate 4001 'a') =
      [SendEvent.message (List.replicate 4000 'a'),
       SendEvent.message (continuationMark ++ ['a']), SendEvent.pause 1] := by
    unfold sendLongMessage
    rw [if_neg (Nat.not_le.mpr hlen),
      chunkList_cons (replicate_ne_nil 4001 'a' (by norm_num)), e1, e2, e3]
    rfl
  refine ⟨hmain, ?_⟩
  intro n hc
  rw [hmain] at hc
  simp only [List.take] at hc
  have h12 := List.cons.inj (List.cons.inj hc).2
  exact SendEvent.noConfusion h12.1

/-! ## C9: similarity retrieval and the disabled live lookup -/

theorem findSimilar_foldl_spec (ratio : Str → Str → ℚ) (question : Str) :
    ∀ (pairs : List (Str × QARecord)) (b : ℚ) (m : Option Str),
      b ≤ (pairs.foldl (findSimilarStep ratio question) (b, m)).1
      ∧ (∀ p ∈ pairs,
          ratio question p.1 ≤ (pairs.foldl (findSimilarStep ratio question) (b, m)).1)
      ∧ (((pairs.foldl (findSimilarStep ratio question) (b, m)).1 = b
            ∧ (pairs.foldl (findSimilarStep ratio question) (b, m)).2 = m)
        ∨ ∃ p ∈ pairs,
            (pairs.foldl (findSimilarStep ratio question) (b, m)).2 = some p.2.answer
            ∧ (pairs.foldl (findSimilarStep ratio question) (b, m)).1 = ratio question p.1
            ∧ b < ratio question p.1) := by
  intro pairs
  induction pairs with
  | nil => exact fun b m => ⟨le_rfl, by simp, Or.inl ⟨rfl, rfl⟩⟩
  | cons q rest ih =>
    intro b m
    rw [List.foldl_cons]
    by_cases hq : b < ratio question q.1
    · have hstep : findSimilarStep ratio question (b, m) q =
          (ratio question q.1, some q.2.answer) := by
        simp [findSimilarStep, hq]
      rw [hstep]
      obtain ⟨hle, hall, hcase⟩ := ih (ratio question q.1) (some q.2.answer)
      refine ⟨le_of_lt (lt_of_lt_of_le hq hle), ?_, ?_⟩
      · intro p hp
        rcases List.mem_cons.mp hp with rfl | hp
        · exact hle
        · exact hall p hp
      · rcases hcase with ⟨h1, h2⟩ | ⟨p, hp, ha, hb2, hc⟩
        · exact Or.inr ⟨q, List.mem_cons_self _ _, h2, h1, hq⟩
        · exact Or.inr ⟨p, List.mem_cons_of_mem _ hp, ha, hb2, lt_trans hq hc⟩
    · have hstep : findSimilarStep ratio question (b, m) q = (b, m) := by
        simp [findSimilarStep, hq]
      rw [hstep]
      obtain ⟨hle, hall, hcase⟩ := ih b m
      refine ⟨hle, ?_, ?_⟩
      · intro p hp
        rcases List.mem_cons.mp hp with rfl | hp
        · exact le_trans (not_lt.mp hq) hle
        · exact hall p hp
      · rcases hcase with h1 | ⟨p, hp, ha, hb2, hc⟩
        · exact Or.inl h1
        · exact Or.inr ⟨p, List.mem_cons_of_mem _ hp, ha, hb2, hc⟩

/-- **C9** (confirmed).  `_find_similar_question` returns an answer only
when some stored normalized question has a similarity ratio with the
query exceeding the 0.85 threshold, and then it returns the answer of a
best-matching stored question (no stored question is strictly more
similar); otherwise it returns no match.  The live lookup
`get_cached_response` used on the primary conversational path returns no
match for every input. -/
theorem findSimilarQuestion_spec (ratio : Str → Str → ℚ) (question : Str)
    (qa_pairs : List (Str × QARecord)) :
    (findSimilarQuestion ratio question qa_pairs = none ↔
      ∀ p ∈ qa_pairs, ratio question p.1 ≤ 0.85)
    ∧ (∀ a, findSimilarQuestion ratio question qa_pairs = some a →
        ∃ p ∈ qa_pairs, p.2.answer = a ∧ (0.85 : ℚ) < ratio question p.1 ∧
          ∀ p2 ∈ qa_pairs, ratio question p2.1 ≤ ratio question p.1)
    ∧ getCachedResponse question = none := by
  obtain ⟨hle, hall, hcase⟩ :=
    findSimilar_foldl_spec ratio question qa_pairs (0.85 : ℚ) none
  have hfq : findSimilarQuestion ratio question qa_pairs =
      (qa_pairs.foldl (findSimilarStep ratio question) ((0.85 : ℚ), none)).2 := rfl
  refine ⟨⟨?_, ?_⟩, ?_, rfl⟩
  · intro hnone p hp
    rcases hcase with ⟨h1, _⟩ | ⟨p2, _, ha, _, _⟩
    · have := hall p hp
      rwa [h1] at this
    · rw [hfq, ha] at hnone
      exact Option.noConfusion hnone
  · intro hub
    rcases hcase with ⟨_, h2⟩ | ⟨p2, hp2, _, _, hc⟩
    · rw [hfq, h2]
    · exact absurd hc (not_lt.mpr (hub p2 hp2))
  · intro a ha
    rcases hcase with ⟨_, h2⟩ | ⟨p2, hp2, ha2, hb2, hc2⟩
    · rw [hfq, h2] at ha
      exact Option.noConfusion ha
    · rw [hfq, ha2] at ha
      refine ⟨p2, hp2, Option.some.inj ha, hc2, ?_⟩
      intro p3 hp3
      have := hall p3 hp3
      rwa [hb2] at this

/-- **C9 witness**: with a similarity of 1 the single stored answer is
returned; with a similarity of 0 nothing is returned; the live lookup
misses on a concrete input. -/
theorem findSimilarQuestion_spec_witness :
    findSimilarQuestion (fun _ _ => (1 : ℚ)) "q".data
        [("a".data, ⟨"a".data, "ans".data, "t".data, 1⟩)] = some "ans".data
    ∧ findSimilarQuestion (fun _ _ => (0 : ℚ)) "q".data
        [("a".data, ⟨"a".data, "ans".data, "t".data, 1⟩)] = none
    ∧ getCachedResponse "anything".data = none := by
  refine ⟨?_, ?_, (findSimilarQuestion_spec (fun _ _ => (0 : ℚ)) "anything".data []).2.2⟩
  · have h := (findSimilarQuestion_spec (fun _ _ => (1 : ℚ)) "q".data
      [("a".data, ⟨"a".data, "ans".data, "t".data, 1⟩)]).1
    cases hv : findSimilarQuestion (fun _ _ => (1 : ℚ)) "q".data
        [("a".data, ⟨"a".data, "ans".data, "t".data, 1⟩)] with
    | none =>
      have := h.mp hv ("a".data, ⟨"a".data, "ans".data, "t".data, 1⟩) (by simp)
      norm_num at this
    | some a =>
      obtain ⟨p, hp, hans, _, _⟩ := (findSimilarQuestion_spec (fun _ _ => (1 : ℚ)) "q".data
        [("a".data, ⟨"a".data, "ans".data, "t".data, 1⟩)]).2.1 a hv
      simp only [List.mem_singleton] at hp
      rw [← hans, hp]
  · exact (findSimilarQuestion_spec (fun _ _ => (0 : ℚ)) "q".data
      [("a".data, ⟨"a".data, "ans".data, "t".data, 1⟩)]).1.mpr
      (fun p _ => by norm_num)

/-! ## C3: idempotence of `normalize` — character-level lemmas -/

theorem toNat_ofNat_valid {n : Nat} (h : n.isValidChar) : (Char.ofNat n).toNat = n := by
  unfold Char.ofNat
  rw [dif_pos h]
  rfl

theorem toLower_eq_of_not {c : Char} (h : ¬ (65 ≤ c.toNat ∧ c.toNat ≤ 90)) :
    Char.toLower c = c := by
  simp only [Char.toLower]
  split
  · next hcond => exact absurd ⟨hcond.1, hcond.2⟩ h
  · rfl

theorem toLower_toNat_of {c : Char} (h : 65 ≤ c.toNat ∧ c.toNat ≤ 90) :
    (Char.toLower c).toNat = c.toNat + 32 := by
  simp only [Char.toLower]
  split
  · next => exact toNat_ofNat_valid (Or.inl (by omega))
  · next hcond => exact absurd ⟨h.1, h.2⟩ hcond

theorem toNat_of_isWsChar {c : Char} (h : isWsChar c = true) :
    c.toNat = 32 ∨ c.toNat = 9 ∨ c.toNat = 10 ∨ c.toNat = 13 := by
  unfold isWsChar at h
  simp only [Bool.or_eq_true, beq_iff_eq] at h
  rcases h with ((rfl | rfl) | rfl) | rfl
  · exact Or.inl rfl
  · exact Or.inr (Or.inl rfl)
  · exact Or.inr (Or.inr (Or.inl rfl))
  · exact Or.inr (Or.inr (Or.inr rfl))

theorem isWsChar_toLower (c : Char) : isWsChar (Char.toLower c) = isWsChar c := by
  by_cases h : 65 ≤ c.toNat ∧ c.toNat ≤ 90
  · have h1 : isWsChar c = false := by
      cases hw : isWsChar c with
      | false => rfl
      | true => rcases toNat_of_isWsChar hw with h2 | h2 | h2 | h2 <;> omega
    have h2 : isWsChar (Char.toLower c) = false := by
      cases hw : isWsChar (Char.toLower c) with
      | false => rfl
      | true =>
        have h3 := toNat_of_isWsChar hw
        rw [toLower_toNat_of h] at h3
        rcases h3 with h3 | h3 | h3 | h3 <;> omega
    rw [h1, h2]
  · rw [toLower_eq_of_not h]

theorem toLower_idem (c : Char) : Char.toLower (Char.toLower c) = Char.toLower c := by
  by_cases h : 65 ≤ c.toNat ∧ c.toNat ≤ 90
  · apply toLower_eq_of_not
    rw [toLower_toNat_of h]
    omega
  · rw [toLower_eq_of_not h]
    exact toLower_eq_of_not h

theorem toLower_space : Char.toLower ' ' = ' ' := by decide

theorem lowerStr_append (a b : Str) : lowerStr (a ++ b) = lowerStr a ++ lowerStr b :=
  List.map_append _ a b

theorem lowerStr_cons (c : Char) (s : Str) :
    lowerStr (c :: s) = Char.toLower c :: lowerStr s := rfl

/-! ## C3: the words produced by `splitWs` -/

theorem splitWs_parts : ∀ (n : Nat) (s : Str), s.length ≤ n →
    ∀ w ∈ splitWs s, w ≠ [] ∧ ∀ c ∈ w, isWsChar c = false := by
  intro n
  induction n with
  | zero =>
    intro s h w hw
    have hs : s = [] := List.length_eq_zero.mp (Nat.le_zero.mp h)
    subst hs
    cases hw
  | succ m ih =>
    intro s h w hw
    cases s with
    | nil => cases hw
    | cons c cs =>
      by_cases hc : isWsChar c = true
      · rw [splitWs_cons_pos cs hc] at hw
        refine ih cs ?_ w hw
        simp only [List.length_cons] at h
        omega
      · have hc2 : isWsChar c = false := by simpa using hc
        rw [splitWs_cons_neg cs hc2] at hw
        rcases List.mem_cons.mp hw with rfl | hw
        · refine ⟨by simp, ?_⟩
          intro d hd
          rcases List.mem_cons.mp hd with rfl | hd
          · exact hc2
          · have := List.mem_takeWhile_imp hd
            simpa using this
        · refine ih (cs.dropWhile (fun d => !isWsChar d)) ?_ w hw
          have hdw :=
            (List.dropWhile_suffix (l := cs) (fun d => !isWsChar d)).sublist.length_le
          simp only [List.length_cons] at h
          omega

/-! ## C3: `joinSpace` equations and canonical-form facts -/

theorem joinSpace_cons (w : Str) (ws : List Str) (h : ws ≠ []) :
    joinSpace (w :: ws) = w ++ ' ' :: joinSpace ws := by
  cases ws with
  | nil => exact absurd rfl h
  | cons x xs => rfl

theorem lowerStr_joinSpace (ps : List Str) :
    lowerStr (joinSpace ps) = joinSpace (ps.map lowerStr) := by
  induction ps with
  | nil => rfl
  | cons w ws ih =>
    cases ws with
    | nil => rfl
    | cons x xs =>
      rw [joinSpace_cons w (x :: xs) (by simp)]
      have h2 : (w :: x :: xs).map lowerStr = lowerStr w :: (x :: xs).map lowerStr := rfl
      rw [h2, joinSpace_cons (lowerStr w) ((x :: xs).map lowerStr) (by simp)]
      rw [lowerStr_append, lowerStr_cons, toLower_space, ih]

theorem joinSpace_head? (x : Str) (xs : List Str) (hx : x ≠ []) :
    (joinSpace (x :: xs)).head? = x.head? := by
  cases xs with
  | nil => rfl
  | cons y ys =>
    rw [joinSpace_cons x (y :: ys) (by simp)]
    cases x with
    | nil => exact absurd rfl hx
    | cons c cx => rfl

theorem joinSpace_noLeadWs (ps : List Str)
    (hp : ∀ w ∈ ps, w ≠ [] ∧ ∀ c ∈ w, isWsChar c = false) :
    noLeadWs (joinSpace ps) = true := by
  cases ps with
  | nil => rfl
  | cons w ws =>
    obtain ⟨hw1, hw2⟩ := hp w (List.mem_cons_self _ _)
    cases w with
    | nil => exact absurd rfl hw1
    | cons c cw =>
      cases ws with
      | nil => simp [joinSpace, noLeadWs, hw2 c (by simp)]
      | cons x xs =>
        rw [joinSpace_cons (c :: cw) (x :: xs) (by simp)]
        simp [noLeadWs, hw2 c (by simp)]

theorem mem_joinSpace : ∀ {ps : List Str} {c : Char}, c ∈ joinSpace ps →
    (∃ w ∈ ps, c ∈ w) ∨ c = ' ' := by
  intro ps
  induction ps with
  | nil => intro c hc; cases hc
  | cons w ws ih =>
    intro c hc
    cases ws with
    | nil => exact Or.inl ⟨w, by simp, hc⟩
    | cons x xs =>
      rw [joinSpace_cons w (x :: xs) (by simp)] at hc
      rcases List.mem_append.mp hc with h | h
      · exact Or.inl ⟨w, by simp, h⟩
      · rcases List.mem_cons.mp h with rfl | h
        · exact Or.inr rfl
        · rcases ih h with ⟨v, hv, hcv⟩ | h2
          · exact Or.inl ⟨v, List.mem_cons_of_mem _ hv, hcv⟩
          · exact Or.inr h2

/-! ## C3: facts about adjacent whitespace -/

theorem noAdjWs_of_all_nonWs : ∀ (l : Str), (∀ c ∈ l, isWsChar c = false) →
    noAdjWs l = true
  | [], _ => rfl
  | [_], _ => rfl
  | c :: d :: rest, h => by
    simp only [noAdjWs, Bool.and_eq_true]
    refine ⟨by simp [h c (by simp)], ?_⟩
    exact noAdjWs_of_all_nonWs (d :: rest)
      (fun e he => h e (List.mem_cons_of_mem _ he))

theorem noAdjWs_cons {c : Char} {l : Str} (h : noAdjWs (c :: l) = true) :
    noAdjWs l = true := by
  cases l with
  | nil => rfl
  | cons d rest =>
    simp only [noAdjWs, Bool.and_eq_true] at h
    exact h.2

theorem noAdjWs_append_right : ∀ {l r : Str}, noAdjWs (l ++ r) = true →
    noAdjWs r = true := by
  intro l
  induction l with
  | nil => exact fun h => h
  | cons c cl ih => exact fun h => ih (noAdjWs_cons h)

theorem noAdjWs_append_left : ∀ {l r : Str}, noAdjWs (l ++ r) = true →
    noAdjWs l = true := by
  intro l
  induction l with
  | nil => intro r _; rfl
  | cons c cl ih =>
    intro r h
    cases cl with
    | nil => rfl
    | cons c2 cl2 =>
      simp only [List.cons_append, noAdjWs, Bool.and_eq_true] at h ⊢
      exact ⟨h.1, ih (r := r) h.2⟩

theorem noAdjWs_append : ∀ {l r : Str}, noAdjWs l = true → noAdjWs r = true →
    (∀ c, l.getLast? = some c → ∀ d, r.head? = some d →
      isWsChar c = false ∨ isWsChar d = false) →
    noAdjWs (l ++ r) = true := by
  intro l
  induction l with
  | nil => intro r _ hr _; simpa using hr
  | cons c cl ih =>
    intro r hl hr hlr
    cases cl with
    | nil =>
      cases r with
      | nil => rfl
      | cons d rs =>
        simp only [List.cons_append, List.nil_append, noAdjWs, Bool.and_eq_true]
        refine ⟨?_, hr⟩
        rcases hlr c rfl d rfl with h | h <;> simp [h]
    | cons c2 cl2 =>
      simp only [List.cons_append, noAdjWs, Bool.and_eq_true] at hl ⊢
      refine ⟨hl.1, ?_⟩
      have h2 := ih (r := r) hl.2 hr ?_
      · simpa using h2
      · intro e he d hd
        refine hlr e ?_ d hd
        rw [List.getLast?_cons_cons]
        exact he

theorem joinSpace_noAdjWs (ps : List Str)
    (hp : ∀ w ∈ ps, w ≠ [] ∧ ∀ c ∈ w, isWsChar c = false) :
    noAdjWs (joinSpace ps) = true := by
  induction ps with
  | nil => rfl
  | cons w ws ih =>
    obtain ⟨hw1, hw2⟩ := hp w (List.mem_cons_self _ _)
    cases ws with
    | nil => exact noAdjWs_of_all_nonWs w hw2
    | cons x xs =>
      rw [joinSpace_cons w (x :: xs) (by simp)]
      have hrest : noAdjWs (joinSpace (x :: xs)) = true :=
        ih (fun v hv => hp v (List.mem_cons_of_mem _ hv))
      have hhead : noLeadWs (joinSpace (x :: xs)) = true :=
        joinSpace_noLeadWs (x :: xs) (fun v hv => hp v (List.mem_cons_of_mem _ hv))
      apply noAdjWs_append (noAdjWs_of_all_nonWs w hw2)
      · cases hj : joinSpace (x :: xs) with
        | nil => rfl
        | cons y ys =>
          simp only [noAdjWs, Bool.and_eq_true]
          rw [hj] at hrest hhead
          refine ⟨?_, hrest⟩
          simp only [noLeadWs, Bool.not_eq_true'] at hhead
          simp [hhead]
      · intro e he d hd
        left
        exact hw2 e (List.mem_of_getLast?_eq_some he)

/-! ## C3: `joinSpace` undoes `splitWs` on canonical strings -/

theorem joinSpace_splitWs : ∀ (n : Nat) (s : Str), s.length ≤ n →
    noLeadWs s = true → noAdjWs s = true → noTrailWs s = true →
    (∀ c ∈ s, isWsChar c = true → c = ' ') →
    joinSpace (splitWs s) = s := by
  intro n
  induction n with
  | zero =>
    intro s hlen _ _ _ _
    have hs : s = [] := List.length_eq_zero.mp (Nat.le_zero.mp hlen)
    subst hs
    rfl
  | succ m ih =>
    intro s hlen hlead hadj htrail hsp
    cases s with
    | nil => rfl
    | cons c cs =>
      have hc : isWsChar c = false := by
        simpa [noLeadWs, Bool.not_eq_true'] using hlead
      rw [splitWs_cons_neg cs hc]
      have hcs : cs = cs.takeWhile (fun d => !isWsChar d) ++
          cs.dropWhile (fun d => !isWsChar d) :=
        (List.takeWhile_append_dropWhile _ _).symm
      cases hrestc : cs.dropWhile (fun d => !isWsChar d) with
      | nil =>
        rw [hrestc] at hcs
        rw [List.append_nil] at hcs
        rw [splitWs_nil]
        show c :: cs.takeWhile (fun d => !isWsChar d) = c :: cs
        rw [← hcs]
      | cons r0 rest2 =>
        have hr0 : isWsChar r0 = true := by
          have hh := List.head?_dropWhile_not (fun d => !isWsChar d) cs
          rw [hrestc] at hh
          simp only [List.head?_cons] at hh
          simpa using hh
        have hr0mem : r0 ∈ c :: cs := by
          rw [hcs, hrestc]
          exact List.mem_cons_of_mem c (List.mem_append_right _ (by simp))
        have hr0sp : r0 = ' ' := hsp r0 hr0mem hr0
        subst hr0sp
        rw [splitWs_cons_pos rest2 (by decide)]
        have hdecomp : c :: cs =
            (c :: cs.takeWhile (fun d => !isWsChar d)) ++ ' ' :: rest2 := by
          conv_lhs => rw [hcs, hrestc]
          rfl
        have hrest2_ne : rest2 ≠ [] := by
          intro hr2
          rw [hr2] at hdecomp
          have hgl : (c :: cs).getLast? = some ' ' := by
            rw [hdecomp]
            exact List.getLast?_concat _
          unfold noTrailWs at htrail
          rw [hgl] at htrail
          simp [isWsChar] at htrail
        have hadjtail : noAdjWs (' ' :: rest2) = true := by
          have := noAdjWs_append_right (l := c :: cs.takeWhile (fun d => !isWsChar d))
            (r := ' ' :: rest2) (by rw [← hdecomp]; exact hadj)
          exact this
        have hheadrest2 : noLeadWs rest2 = true := by
          cases rest2 with
          | nil => rfl
          | cons d rs =>
            simp only [noAdjWs, Bool.and_eq_true] at hadjtail
            have h1 : isWsChar d = false := by simpa [isWsChar] using hadjtail.1
            simp [noLeadWs, h1]
        have hadjrest2 : noAdjWs rest2 = true := noAdjWs_cons hadjtail
        have htrailrest2 : noTrailWs rest2 = true := by
          have hgl : (c :: cs).getLast? = rest2.getLast? := by
            rw [hdecomp]
            rw [show (c :: cs.takeWhile (fun d => !isWsChar d)) ++ ' ' :: rest2 =
              ((c :: cs.takeWhile (fun d => !isWsChar d)) ++ [' ']) ++ rest2 by simp]
            rw [List.getLast?_append]
            cases hg2 : rest2.getLast? with
            | none => exact absurd (List.getLast?_eq_none_iff.mp hg2) hrest2_ne
            | some a => rfl
          unfold noTrailWs at htrail ⊢
          rw [← hgl]
          exact htrail
        have hsprest2 : ∀ d ∈ rest2, isWsChar d = true → d = ' ' := by
          intro d hd hwd
          refine hsp d ?_ hwd
          rw [hdecomp]
          exact List.mem_append_right _ (List.mem_cons_of_mem _ hd)
        have hlenrest2 : rest2.length ≤ m := by
          have := congrArg List.length hdecomp
          simp only [List.length_cons, List.length_append] at this hlen
          omega
        have hihres := ih rest2 hlenrest2 hheadrest2 hadjrest2 htrailrest2 hsprest2
        have hsplit_ne : splitWs rest2 ≠ [] := by
          cases rest2 with
          | nil => exact absurd rfl hrest2_ne
          | cons d rs =>
            have hd : isWsChar d = false := by
              simpa [noLeadWs, Bool.not_eq_true'] using hheadrest2
            rw [splitWs_cons_neg rs hd]
            simp
        rw [joinSpace_cons _ _ hsplit_ne, hihres, ← hdecomp]

/-! ## C3: the trailing-punctuation strip -/

theorem stripTrailingPunct_eq_rdropWhile (s : Str) :
    stripTrailingPunct s = s.rdropWhile isPunctChar := rfl

theorem stripTrailingPunct_prefix (s : Str) : stripTrailingPunct s <+: s := by
  rw [stripTrailingPunct_eq_rdropWhile]
  exact List.rdropWhile_prefix _ _

theorem stripTrailingPunct_idem (s : Str) :
    stripTrailingPunct (stripTrailingPunct s) = stripTrailingPunct s := by
  rw [stripTrailingPunct_eq_rdropWhile, stripTrailingPunct_eq_rdropWhile]
  exact List.rdropWhile_idempotent _ _

theorem stripTrailingPunct_last_not (s : Str) :
    ∀ c, (stripTrailingPunct s).getLast? = some c → isPunctChar c = false := by
  intro c hc
  have hne : stripTrailingPunct s ≠ [] := by
    intro h0
    rw [h0] at hc
    exact Option.noConfusion hc
  rw [stripTrailingPunct_eq_rdropWhile] at hc hne
  have hlast := List.rdropWhile_last_not isPunctChar s hne
  rw [List.getLast?_eq_getLast _ hne] at hc
  rw [← Option.some.inj hc]
  simpa using hlast

/-! ## C3: `pyStrip` fixes strings with no outer whitespace -/

theorem pyStrip_eq_self {s : Str} (hlead : noLeadWs s = true)
    (htrail : noTrailWs s = true) : pyStrip s = s := by
  unfold pyStrip
  have h1 : s.dropWhile isWsChar = s := by
    cases s with
    | nil => rfl
    | cons c cs =>
      have hc : isWsChar c = false := by
        simpa [noLeadWs, Bool.not_eq_true'] using hlead
      rw [List.dropWhile_cons_of_neg (by simp [hc])]
  rw [h1]
  have h2 : s.reverse.dropWhile isWsChar = s.reverse := by
    cases hr : s.reverse with
    | nil => rfl
    | cons c cs =>
      have hcl : s.getLast? = some c := by
        rw [List.getLast?_eq_head?_reverse, hr]
        rfl
      have hc : isWsChar c = false := by
        unfold noTrailWs at htrail
        rw [hcl] at htrail
        simpa using htrail
      rw [List.dropWhile_cons_of_neg (by simp [hc])]
  rw [h2, List.reverse_reverse]

/-! ## C3: the idempotence theorem, witness and counterexample -/

/-- **C3** (amended).  `normalize` is idempotent on every input whose
normalized form does not end in whitespace:
`normalize (normalize q) = normalize q` whenever `noTrailWs (normalize q)`.
When stripping the trailing punctuation run exposes a space (as for
`"a ."`), the normalized form keeps that trailing space and a second
application removes it, so unconditional idempotence fails — see the
counterexample. -/
theorem normalize_idem (q : Str) (h : noTrailWs (normalize q) = true) :
    normalize (normalize q) = normalize q := by
  have hparts : ∀ w ∈ splitWs (pyStrip q), w ≠ [] ∧ ∀ c ∈ w, isWsChar c = false :=
    splitWs_parts (pyStrip q).length _ le_rfl
  have hparts2 : ∀ w ∈ (splitWs (pyStrip q)).map lowerStr,
      w ≠ [] ∧ ∀ c ∈ w, isWsChar c = false := by
    intro w hw
    obtain ⟨v, hv, rfl⟩ := List.mem_map.mp hw
    obtain ⟨hv1, hv2⟩ := hparts v hv
    refine ⟨by simpa [lowerStr] using hv1, ?_⟩
    intro c hc
    obtain ⟨d, hd, rfl⟩ := List.mem_map.mp hc
    rw [isWsChar_toLower]
    exact hv2 d hd
  have hlj : lowerStr (joinSpace (splitWs (pyStrip q))) =
      joinSpace ((splitWs (pyStrip q)).map lowerStr) :=
    lowerStr_joinSpace (splitWs (pyStrip q))
  have hnorm : normalize q =
      stripTrailingPunct (lowerStr (joinSpace (splitWs (pyStrip q)))) := rfl
  have hleadl : noLeadWs (lowerStr (joinSpace (splitWs (pyStrip q)))) = true := by
    rw [hlj]
    exact joinSpace_noLeadWs _ hparts2
  have hadjl : noAdjWs (lowerStr (joinSpace (splitWs (pyStrip q)))) = true := by
    rw [hlj]
    exact joinSpace_noAdjWs _ hparts2
  have hpre : normalize q <+: lowerStr (joinSpace (splitWs (pyStrip q))) := by
    rw [hnorm]
    exact stripTrailingPunct_prefix _
  have hleadr : noLeadWs (normalize q) = true := by
    cases hq : normalize q with
    | nil => rfl
    | cons c cr =>
      obtain ⟨u, hu⟩ := hpre
      rw [hq] at hu
      rw [← hu] at hleadl
      simpa [noLeadWs] using hleadl
  have hadjr : noAdjWs (normalize q) = true := by
    obtain ⟨u, hu⟩ := hpre
    rw [← hu] at hadjl
    exact noAdjWs_append_left hadjl
  have hspr : ∀ c ∈ normalize q, isWsChar c = true → c = ' ' := by
    intro c hc hw
    have hcl : c ∈ lowerStr (joinSpace (splitWs (pyStrip q))) := hpre.subset hc
    rw [hlj] at hcl
    rcases mem_joinSpace hcl with ⟨w, hwmem, hcw⟩ | hsp2
    · exact absurd hw (by simp [(hparts2 w hwmem).2 c hcw])
    · exact hsp2
  have hstrip : pyStrip (normalize q) = normalize q := pyStrip_eq_self hleadr h
  have hsplit : joinSpace (splitWs (normalize q)) = normalize q :=
    joinSpace_splitWs (normalize q).length _ le_rfl hleadr hadjr h hspr
  have hlower : lowerStr (normalize q) = normalize q := by
    have hfix : ∀ c ∈ normalize q, Char.toLower c = c := by
      intro c hc
      have hcl : c ∈ lowerStr (joinSpace (splitWs (pyStrip q))) := hpre.subset hc
      obtain ⟨d, _, rfl⟩ := List.mem_map.mp hcl
      exact toLower_idem d
    unfold lowerStr
    exact (List.map_congr_left hfix).trans (List.map_id _)
  have hunfold : normalize (normalize q) =
      stripTrailingPunct (lowerStr (joinSpace (splitWs (pyStrip (normalize q))))) := rfl
  rw [hunfold, hstrip, hsplit, hlower, hnorm]
  exact stripTrailingPunct_idem _

/-- **C3 witness**: `"Hello  World!"` normalizes to `"hello world"`,
which has no trailing whitespace, and normalizing again is stable. -/
theorem normalize_idem_witness :
    noTrailWs (normalize "Hello  World!".data) = true
    ∧ normalize (normalize "Hello  World!".data) = normalize "Hello  World!".data :=
  ⟨by decide, normalize_idem "Hello  World!".data (by decide)⟩

/-- **C3 counterexample**: `normalize "a ."` equals `"a "` (stripping the
trailing `"."` exposes a space), and a second `normalize` yields `"a"`,
so `normalize (normalize q) = normalize q` fails at `q = "a ."`. -/
theorem normalize_not_idempotent :
    normalize "a .".data = "a ".data
    ∧ normalize (normalize "a .".data) = "a".data
    ∧ normalize (normalize "a .".data) ≠ normalize "a .".data :=
  ⟨by decide, by decide, by decide⟩

end TGBot
